import Mathlib

/-!
Shallow embedding of the rust-autocomplete word-prediction engine.

The repository contains the current implementation (`src/simplemodel.rs`,
`src/predictionentry.rs`, `src/bigram_model.rs`) and two near-duplicate
historical variants (`src/lib.rs`, which matches `simplemodel.rs`
semantically, and `src/models.rs`, which differs in two places: its
`count_words` does not skip empty tokens, and its `predict` does not
truncate the result to 10 entries and uses a different scan-break
condition).  Both the current code and the `models.rs` variant are
embedded below.

Modelling conventions:
* Rust `HashMap` values are modelled as association lists.  The trainer
  map appends fresh keys at the end (`bump`); the bucket index prepends
  (`genIxsAux`), and `hmGet` returns the first match, so a later insert
  shadows an earlier one exactly as `HashMap::insert` overwrites.
  Key uniqueness, which the Rust `HashMap` type guarantees, is the
  predicate `HMWf`.
* `u32` scores are modelled as `Nat` (training only ever increments from
  1, far from overflow for any input this library is meant for).
* Partial functions (Rust panics) are modelled with `Option`: `none`
  models a panic.  `predict` panics on an empty input (`char_at(0)`),
  `finalize` panics when some stored word is empty (`char_at(0)` inside
  `generate_ixs` is called on every entry), and the bigram `count_words`
  panics via `input[0]` when called with an empty slice and no pending
  word.  `char_at(0)` of the words stored in the trainer is total
  whenever the trainer contains no empty word, which `finalize` checks
  up front in the model; `firstChar` returns an arbitrary character on
  the empty string and is only ever used under that guard.
* Rust `Vec::sort` / `sort_by` are stable sorts; they are modelled by
  `List.insertionSort`, which is stable for the same comparator
  discipline (an element is inserted before the first element it
  compares less-or-equal to).
* String comparison: Rust compares `String`s byte-lexicographically on
  UTF-8, which coincides with the codepoint-lexicographic order of
  Lean's `String` linear order.
-/

/-- `PredictionEntry` from `src/predictionentry.rs`: a word together with
its occurrence count.  The `models.rs` variant's `SimpleWordEntry` has the
same two fields and the same derived orderings, so one structure embeds
both. -/
structure PredictionEntry where
  word : String
  score : Nat
deriving DecidableEq, Repr

/-- `HashMap::get`, on the association-list model: first binding wins
(inserts that shadow older bindings are prepended). -/
def hmGet {α β : Type} [DecidableEq α] : List (α × β) → α → Option β
  | [], _ => none
  | (k, v) :: rest, a => if a = k then some v else hmGet rest a

/-- The `HashMap<String, u32>` inside `SimpleWordTrainer`, as an
insertion-ordered association list. -/
abbrev TrainerMap := List (String × Nat)

/-- Key uniqueness: the representation invariant every Rust `HashMap`
enjoys by construction. -/
def HMWf (m : TrainerMap) : Prop := (m.map Prod.fst).Nodup

/-- The `HashMap` entry-API dance in `train_single_word`: increment an
occupied entry in place, insert `1` into a vacant one. -/
def bump : TrainerMap → String → TrainerMap
  | [], w => [(w, 1)]
  | (k, v) :: rest, w => if k = w then (k, v + 1) :: rest else (k, v) :: bump rest w

/-- `train_single_word` from `src/simplemodel.rs` (lines 184–199): skip
the empty word, otherwise increment-or-insert. -/
def train_single_word (m : TrainerMap) (w : String) : TrainerMap :=
  if w = "" then m else bump m w

/-- `count_words` from `src/simplemodel.rs`: train each token in order.
(The `lib.rs` variant inlines the same empty-token skip.) -/
def count_words (m : TrainerMap) (input : List String) : TrainerMap :=
  input.foldl train_single_word m

/-- `count_words` from `src/models.rs` (lines 160–175): the historical
variant, which does not skip empty tokens. -/
def count_wordsM (m : TrainerMap) (input : List String) : TrainerMap :=
  input.foldl bump m

/-- A whole training history of the simple model: a fresh trainer fed a
sequence of `train` calls. -/
def trainAll (calls : List (List String)) : TrainerMap :=
  calls.foldl count_words []

/-- `word.char_at(0)`.  Only applied to non-empty words (see the module
docstring); returns an arbitrary character on `""`. -/
def firstChar (s : String) : Char := s.data.headD '?'

/-- Rust `str::starts_with`: a byte prefix test, which on valid UTF-8 is
the character-list prefix test. -/
def strStartsWith (s pre : String) : Bool := pre.data.isPrefixOf s.data

/-- The ordering `PredictionEntry::cmp` induces (it compares the `word`
fields only), used by `entries.sort()` in `finalize`.  It is stated on
the character lists so the kernel can evaluate it; `wordLe_iff` below
identifies it with `≤` on `String`. -/
def wordLe (a b : PredictionEntry) : Prop := ¬ b.word.data < a.word.data

/-- The comparator closure of `predictions.sort_by(|a, b| b.score.cmp(&a.score))`:
`a` precedes `b` when `b.score ≤ a.score` (descending by score). -/
def scoreGe (a b : PredictionEntry) : Prop := b.score ≤ a.score

instance : DecidableRel wordLe :=
  fun a b => inferInstanceAs (Decidable (¬ b.word.data < a.word.data))

instance : DecidableRel scoreGe := fun a b => inferInstanceAs (Decidable (b.score ≤ a.score))

theorem wordLe_iff (a b : PredictionEntry) : wordLe a b ↔ a.word ≤ b.word := by
  unfold wordLe
  rw [String.le_iff_toList_le]
  exact not_lt

instance : IsTotal PredictionEntry wordLe :=
  ⟨fun a b => (le_total a.word b.word).imp (wordLe_iff a b).mpr (wordLe_iff b a).mpr⟩

instance : IsTrans PredictionEntry wordLe :=
  ⟨fun a b c h1 h2 => (wordLe_iff a c).mpr
    (le_trans ((wordLe_iff a b).mp h1) ((wordLe_iff b c).mp h2))⟩

instance : IsTotal PredictionEntry scoreGe := ⟨fun a b => Nat.le_total b.score a.score⟩

instance : IsTrans PredictionEntry scoreGe := ⟨fun _ _ _ h1 h2 => Nat.le_trans h2 h1⟩

/-- `entries.sort()` in `finalize`: stable sort by word, ascending. -/
def sortEntries (l : List PredictionEntry) : List PredictionEntry :=
  List.insertionSort wordLe l

/-- The trainer map materialized as entries, in iteration order. -/
def toEntries (m : TrainerMap) : List PredictionEntry :=
  m.map (fun p => ⟨p.1, p.2⟩)

/-- The loop body of `generate_ixs` (`src/simplemodel.rs` lines 163–182):
scan the entries, and whenever the leading character differs from the
previous one, insert the current offset.  Inserts are prepended so a
later insert shadows an earlier one, as `HashMap::insert` does. -/
def genIxsAux : List PredictionEntry → Char → Nat → List (Char × Nat) → List (Char × Nat)
  | [], _, _, acc => acc
  | e :: rest, last_c, ix, acc =>
    if firstChar e.word ≠ last_c then
      genIxsAux rest (firstChar e.word) (ix + 1) ((firstChar e.word, ix) :: acc)
    else
      genIxsAux rest last_c (ix + 1) acc

/-- `generate_ixs`: the scan starts with `last_c = '\n'` ("There will be
no newlines in the input" per the source comment). -/
def generate_ixs (entries : List PredictionEntry) : List (Char × Nat) :=
  genIxsAux entries '\n' 0 []

/-- The finalized index: `SimpleWordPredictor` from `src/simplemodel.rs`. -/
structure SimpleWordPredictor where
  entries : List PredictionEntry
  ixs : List (Char × Nat)
deriving DecidableEq, Repr

/-- `SimpleWordTrainer::finalize` (also `models.rs`'s identical
`finalize`): materialize the map, sort by word, build the bucket index.
`generate_ixs` reads `char_at(0)` of every entry, so the whole call
panics (`none`) exactly when some stored word is empty. -/
def finalize (m : TrainerMap) : Option SimpleWordPredictor :=
  if ∀ p ∈ m, p.1 ≠ "" then
    some ⟨sortEntries (toEntries m), generate_ixs (sortEntries (toEntries m))⟩
  else none

/-- The scan loop of `SimpleWordPredictor::predict` in
`src/simplemodel.rs`: starting from the bucket offset, stop as soon as
the leading character changes, and keep the entries whose word starts
with the input. -/
def scanLoop : List PredictionEntry → Char → String → List PredictionEntry
  | [], _, _ => []
  | e :: rest, c, input =>
    if firstChar e.word ≠ c then []
    else if strStartsWith e.word input then e :: scanLoop rest c input
    else scanLoop rest c input

/-- `SimpleWordPredictor::predict` from `src/simplemodel.rs` (lines
33–65): `input.char_at(0)` panics on the empty string (`none`);
otherwise look up the bucket, scan, stable-sort by score descending and
truncate to 10. -/
def predict (idx : SimpleWordPredictor) (input : String) : Option (List PredictionEntry) :=
  match input.data.head? with
  | none => none
  | some first_letter =>
    match hmGet idx.ixs first_letter with
    | none => some []
    | some n =>
      some ((List.insertionSort scoreGe (scanLoop (idx.entries.drop n) first_letter input)).take 10)

/-- The scan loop of the `models.rs` variant of `predict`: it breaks
when `input.cmp(word) == Ordering::Greater`, i.e. when the entry's word
is lexically below the input. -/
def scanLoopM : List PredictionEntry → String → List PredictionEntry
  | [], _ => []
  | e :: rest, input =>
    if e.word.data < input.data then []
    else if strStartsWith e.word input then e :: scanLoopM rest input
    else scanLoopM rest input

/-- `SimpleWordPredictor::predict` from `src/models.rs` (lines 57–87):
same structure, but no `truncate(10)` after the sort. -/
def predictM (idx : SimpleWordPredictor) (input : String) : Option (List PredictionEntry) :=
  match input.data.head? with
  | none => none
  | some first_letter =>
    match hmGet idx.ixs first_letter with
    | none => some []
    | some n =>
      some (List.insertionSort scoreGe (scanLoopM (idx.entries.drop n) input))

/-- The record form `to_file` writes: the `(word, score)` pairs in entry
order (ascending by word for a finalized index). -/
def to_record_form (idx : SimpleWordPredictor) : List (String × Nat) :=
  idx.entries.map (fun e => (e.word, e.score))

/-- Rebuilding an index from its record form, as `from_file` does
(`src/simplemodel.rs` lines 68–92): push the entries in record order and
re-derive the bucket index.  The CSV framing itself is out of scope; the
record form is the ordered pair list. -/
def from_record_form (records : List (String × Nat)) : SimpleWordPredictor :=
  ⟨records.map (fun r => ⟨r.1, r.2⟩), generate_ixs (records.map (fun r => ⟨r.1, r.2⟩))⟩

/-- `BigramTrainer` from `src/bigram_model.rs`: the outer map keyed by
conditioning word, plus the pending word carried between `train` calls. -/
structure BigramTrainer where
  outer_map : List (String × TrainerMap)
  prev_word : Option String
deriving DecidableEq, Repr

/-- The outer `HashMap` entry dance in the bigram `count_words` loop
body: an occupied entry trains its inner trainer on the current word, a
vacant one is filled with a fresh trainer trained on it. -/
def bigramBump : List (String × TrainerMap) → String → String → List (String × TrainerMap)
  | [], last, w => [(last, train_single_word [] w)]
  | (k, t) :: rest, last, w =>
    if k = last then (k, train_single_word t w) :: rest
    else (k, t) :: bigramBump rest last w

/-- The `for word in word_iter` loop of the bigram `count_words`:
threads `last_word` through the tokens and returns it together with the
updated outer map. -/
def bigramLoop : List (String × TrainerMap) → String → List String →
    List (String × TrainerMap) × String
  | outer, last, [] => (outer, last)
  | outer, last, w :: ws => bigramLoop (bigramBump outer last w) w ws

/-- `count_words` from `src/bigram_model.rs` (lines 89–120).  With no
pending word the first token is consumed by `word_iter.next()` and
becomes `last_word` via `input[0]` — which panics (`none`) when the
input is empty.  With a pending word every token is processed.  The
pending word is set to the final `last_word` unconditionally. -/
def count_wordsB (tr : BigramTrainer) (input : List String) : Option BigramTrainer :=
  match tr.prev_word with
  | none =>
    match input with
    | [] => none
    | w0 :: rest =>
      let r := bigramLoop tr.outer_map w0 rest
      some ⟨r.1, some r.2⟩
  | some w =>
    let r := bigramLoop tr.outer_map w input
    some ⟨r.1, some r.2⟩

/-- `BigramTrainer::new()`. -/
def bigramNew : BigramTrainer := ⟨[], none⟩

/-- `BigramTrainer::finalize`: finalize every inner trainer (`none` if
any inner `finalize` panics). -/
def finalizeB : List (String × TrainerMap) → Option (List (String × SimpleWordPredictor))
  | [] => some []
  | (k, t) :: rest =>
    match finalize t, finalizeB rest with
    | some idx, some r => some ((k, idx) :: r)
    | _, _ => none

/-- `BigramPredictor::predict`: an unseen conditioning word yields an
empty result; otherwise delegate to the inner predictor. -/
def predictB (bp : List (String × SimpleWordPredictor)) (word1 letters : String) :
    Option (List PredictionEntry) :=
  match hmGet bp word1 with
  | some p => predict p letters
  | none => some []

example : count_words [] ["hello", "", "hello", "there"] =
    [("hello", 2), ("there", 1)] := by decide

example : count_wordsM [] ["hello", "", "hello"] =
    [("hello", 2), ("", 1)] := by decide

example : finalize (count_words [] ["b", "a", "b"]) =
    some ⟨[⟨"a", 1⟩, ⟨"b", 2⟩], [('b', 1), ('a', 0)]⟩ := by decide

example : (finalize (count_words [] ["ab", "aa", "ab"])).bind (fun i => predict i "a") =
    some [⟨"ab", 2⟩, ⟨"aa", 1⟩] := by decide

example : count_wordsB bigramNew ["there", "once", "was"] =
    some ⟨[("there", [("once", 1)]), ("once", [("was", 1)])], some "was"⟩ := by decide

example : count_wordsB bigramNew [] = none := by decide

example : count_wordsB bigramNew ["a", ""] = some ⟨[("a", [])], some ""⟩ := by decide

/-! ### Association-list lemmas for the trainer map -/

theorem hmGet_eq_none {α β : Type} [DecidableEq α] (m : List (α × β)) (a : α) :
    hmGet m a = none ↔ a ∉ m.map Prod.fst := by
  induction m with
  | nil => simp [hmGet]
  | cons p rest ih =>
    obtain ⟨k, v⟩ := p
    by_cases h : a = k <;> simp [hmGet, h, ih]

theorem bump_hmGet_self (m : TrainerMap) (w : String) :
    hmGet (bump m w) w = some ((hmGet m w).getD 0 + 1) := by
  induction m with
  | nil => simp [bump, hmGet]
  | cons p rest ih =>
    obtain ⟨k, v⟩ := p
    by_cases h : k = w
    · subst h
      simp [bump, hmGet]
    · have h2 : w ≠ k := fun hh => h hh.symm
      simp [bump, h, hmGet, h2, ih]

theorem bump_hmGet_ne (m : TrainerMap) {a w : String} (h : a ≠ w) :
    hmGet (bump m w) a = hmGet m a := by
  induction m with
  | nil => simp [bump, hmGet, h]
  | cons p rest ih =>
    obtain ⟨k, v⟩ := p
    by_cases hk : k = w
    · subst hk
      simp [bump, hmGet, h]
    · by_cases ha : a = k <;> simp [bump, hmGet, hk, ha, ih]

theorem tsw_hmGet_ne (m : TrainerMap) {a w : String} (h : a ≠ w) :
    hmGet (train_single_word m w) a = hmGet m a := by
  by_cases hw : w = ""
  · simp [train_single_word, hw]
  · simp [train_single_word, hw, bump_hmGet_ne m h]

theorem tsw_hmGet_empty (m : TrainerMap) (w : String) :
    hmGet (train_single_word m w) "" = hmGet m "" := by
  by_cases hw : w = ""
  · simp [train_single_word, hw]
  · simp [train_single_word, hw, bump_hmGet_ne m (Ne.symm hw)]

theorem count_words_hmGet (ts : List String) (m : TrainerMap) {w : String} (hw : w ≠ "") :
    (hmGet (count_words m ts) w).getD 0 = (hmGet m w).getD 0 + ts.count w := by
  induction ts generalizing m with
  | nil => simp [count_words]
  | cons t ts ih =>
    have step : count_words m (t :: ts) = count_words (train_single_word m t) ts := rfl
    rw [step, ih]
    by_cases hwt : w = t
    · subst hwt
      simp [train_single_word, hw, bump_hmGet_self, List.count_cons]
      omega
    · rw [tsw_hmGet_ne m hwt]
      simp [List.count_cons, hwt]


theorem bump_keys (m : TrainerMap) (w : String) :
    (bump m w).map Prod.fst =
      if w ∈ m.map Prod.fst then m.map Prod.fst else m.map Prod.fst ++ [w] := by
  induction m with
  | nil => simp [bump]
  | cons p rest ih =>
    obtain ⟨k, v⟩ := p
    by_cases h : k = w
    · subst h
      simp [bump]
    · have h2 : w ≠ k := fun hh => h hh.symm
      by_cases hm : w ∈ rest.map Prod.fst
      · simp [bump, h, h2, ih, hm]
      · simp [bump, h, h2, ih, hm]

theorem HMWf_bump {m : TrainerMap} (h : HMWf m) (w : String) : HMWf (bump m w) := by
  unfold HMWf at *
  rw [bump_keys]
  split
  · exact h
  · rename_i hmem
    simp [List.nodup_append, h, hmem]

theorem HMWf_tsw {m : TrainerMap} (h : HMWf m) (w : String) : HMWf (train_single_word m w) := by
  unfold train_single_word
  split
  · exact h
  · exact HMWf_bump h w

theorem HMWf_count_words {m : TrainerMap} (h : HMWf m) (ts : List String) :
    HMWf (count_words m ts) := by
  induction ts generalizing m with
  | nil => exact h
  | cons t ts ih => exact ih (HMWf_tsw h t)

theorem HMWf_trainAll (calls : List (List String)) : HMWf (trainAll calls) := by
  have main : ∀ (m : TrainerMap), HMWf m → HMWf (calls.foldl count_words m) := by
    induction calls with
    | nil => exact fun m h => h
    | cons c cs ih => exact fun m h => ih _ (HMWf_count_words h c)
  exact main [] List.nodup_nil

theorem mem_bump_key {m : TrainerMap} {w : String} {p : String × Nat} (hp : p ∈ bump m w) :
    p.1 ∈ m.map Prod.fst ∨ p.1 = w := by
  induction m with
  | nil =>
    simp [bump] at hp
    simp [hp]
  | cons q rest ih =>
    obtain ⟨k, v⟩ := q
    by_cases hk : k = w
    · subst hk
      rcases List.mem_cons.mp (by simpa [bump] using hp) with hp1 | hp1
      · right
        rw [hp1]
      · left
        simp only [List.map_cons, List.mem_cons]
        right
        exact List.mem_map_of_mem Prod.fst hp1
    · rcases List.mem_cons.mp (by simpa [bump, hk] using hp) with hp1 | hp1
      · left
        rw [hp1]
        simp
      · rcases ih hp1 with hk1 | hk1
        · left
          simp only [List.map_cons, List.mem_cons]
          right
          exact hk1
        · right
          exact hk1

theorem noEmpty_tsw {m : TrainerMap} (h : ∀ p ∈ m, p.1 ≠ "") (w : String) :
    ∀ p ∈ train_single_word m w, p.1 ≠ "" := by
  intro p hp
  unfold train_single_word at hp
  split at hp
  · exact h p hp
  · rename_i hw
    rcases mem_bump_key hp with hk | hk
    · rcases List.mem_map.mp hk with ⟨q, hq, hq1⟩
      rw [← hq1]
      exact h q hq
    · rw [hk]
      exact hw

theorem noEmpty_count_words {m : TrainerMap} (h : ∀ p ∈ m, p.1 ≠ "") (ts : List String) :
    ∀ p ∈ count_words m ts, p.1 ≠ "" := by
  induction ts generalizing m with
  | nil => exact h
  | cons t ts ih => exact ih (noEmpty_tsw h t)

theorem noEmpty_trainAll (calls : List (List String)) : ∀ p ∈ trainAll calls, p.1 ≠ "" := by
  have main : ∀ (m : TrainerMap), (∀ p ∈ m, p.1 ≠ "") →
      ∀ p ∈ calls.foldl count_words m, p.1 ≠ "" := by
    induction calls with
    | nil => exact fun m h => h
    | cons c cs ih => exact fun m h => ih _ (noEmpty_count_words h c)
  exact main [] (by simp)

theorem trainAll_hmGet (calls : List (List String)) {w : String} (hw : w ≠ "") :
    (hmGet (trainAll calls) w).getD 0 = calls.flatten.count w := by
  have main : ∀ (m : TrainerMap),
      (hmGet (calls.foldl count_words m) w).getD 0 =
        (hmGet m w).getD 0 + calls.flatten.count w := by
    induction calls with
    | nil => simp
    | cons c cs ih =>
      intro m
      simp only [List.foldl_cons, List.flatten_cons, List.count_append]
      rw [ih, count_words_hmGet c m hw]
      omega
  simpa [trainAll, hmGet] using main []

theorem word_mem_keys_of_mem_toEntries {m : TrainerMap} {e : PredictionEntry}
    (he : e ∈ toEntries m) : e.word ∈ m.map Prod.fst := by
  rcases List.mem_map.mp he with ⟨p, hp, hpe⟩
  rw [← hpe]
  exact List.mem_map_of_mem Prod.fst hp

theorem hmGet_of_mem_toEntries {m : TrainerMap} (hwf : HMWf m) {e : PredictionEntry}
    (he : e ∈ toEntries m) : hmGet m e.word = some e.score := by
  induction m with
  | nil => simp [toEntries] at he
  | cons p rest ih =>
    obtain ⟨k, v⟩ := p
    have hwf2 := (List.nodup_cons.mp hwf)
    rcases List.mem_cons.mp
        (show e ∈ (⟨k, v⟩ : PredictionEntry) :: toEntries rest from he) with h1 | h1
    · rw [h1]
      simp [hmGet]
    · have hne : e.word ≠ k := by
        intro hc
        exact hwf2.1 (hc ▸ word_mem_keys_of_mem_toEntries h1)
      simp only [hmGet, if_neg hne]
      exact ih hwf2.2 h1

theorem sortEntries_perm (l : List PredictionEntry) : (sortEntries l).Perm l :=
  List.perm_insertionSort wordLe l

theorem sortEntries_sorted (l : List PredictionEntry) : (sortEntries l).Sorted wordLe :=
  List.sorted_insertionSort wordLe l

theorem finalize_eq_some {m : TrainerMap} (h : ∀ p ∈ m, p.1 ≠ "") :
    finalize m =
      some ⟨sortEntries (toEntries m), generate_ixs (sortEntries (toEntries m))⟩ := by
  unfold finalize
  rw [if_pos h]

theorem finalize_some_inv {m : TrainerMap} {idx : SimpleWordPredictor}
    (h : finalize m = some idx) :
    (∀ p ∈ m, p.1 ≠ "") ∧
      idx = ⟨sortEntries (toEntries m), generate_ixs (sortEntries (toEntries m))⟩ := by
  unfold finalize at h
  split at h
  · rename_i hc
    exact ⟨hc, (Option.some.inj h).symm⟩
  · exact absurd h (by simp)

theorem mem_entries_of_finalize {m : TrainerMap} {idx : SimpleWordPredictor}
    (h : finalize m = some idx) {e : PredictionEntry} (he : e ∈ idx.entries) :
    e ∈ toEntries m := by
  rw [(finalize_some_inv h).2] at he
  exact (sortEntries_perm (toEntries m)).mem_iff.mp he

/-! ### Claim C2 -/

/-- C2 (counterexample): the `models.rs` variant of `count_words` does not
exclude empty-string tokens: training `["hello", ""]` stores the empty
word with count 1, and `finalize` then panics (`char_at(0)` of `""`, here
`none`) instead of producing an index without it. -/
theorem c2_counterexample :
    count_wordsM [] ["hello", ""] = [("hello", 1), ("", 1)] ∧
      finalize (count_wordsM [] ["hello", ""]) = none := by
  constructor <;> decide

/-- C2 (amended): for the `simplemodel.rs` trainer the claim holds as
stated: after any sequence of `train` calls, `finalize` succeeds and
every entry's score equals the number of occurrences of that exact word
across all calls, empty tokens being excluded from counting and never
stored as entries.  (The `models.rs` historical variant violates this:
its `count_words` counts empty tokens under the empty word and its
`finalize` then panics; see the counterexample.) -/
theorem c2_scores_are_occurrence_counts (calls : List (List String)) :
    ∃ idx, finalize (trainAll calls) = some idx ∧
      ∀ e ∈ idx.entries, e.word ≠ "" ∧ e.score = calls.flatten.count e.word := by
  refine ⟨_, finalize_eq_some (noEmpty_trainAll calls), ?_⟩
  intro e he
  have he2 : e ∈ toEntries (trainAll calls) :=
    (sortEntries_perm (toEntries (trainAll calls))).mem_iff.mp he
  have hg := hmGet_of_mem_toEntries (HMWf_trainAll calls) he2
  have hw : e.word ≠ "" := by
    intro hcon
    have hk := word_mem_keys_of_mem_toEntries he2
    rw [hcon] at hk
    rcases List.mem_map.mp hk with ⟨p, hp, hpk⟩
    exact noEmpty_trainAll calls p hp hpk
  refine ⟨hw, ?_⟩
  have hcnt := trainAll_hmGet calls hw
  rw [hg] at hcnt
  simpa using hcnt

/-! ### Claim C1 -/

theorem scanLoop_sublist (l : List PredictionEntry) (c : Char) (input : String) :
    (scanLoop l c input).Sublist l := by
  induction l with
  | nil => simp [scanLoop]
  | cons e rest ih =>
    unfold scanLoop
    split
    · exact List.nil_sublist _
    · split
      · exact List.Sublist.cons₂ e ih
      · exact List.Sublist.cons e ih

theorem scanLoop_mem_startsWith {l : List PredictionEntry} {c : Char} {input : String}
    {e : PredictionEntry} (he : e ∈ scanLoop l c input) :
    strStartsWith e.word input = true := by
  induction l with
  | nil => simp [scanLoop] at he
  | cons f rest ih =>
    unfold scanLoop at he
    split at he
    · simp at he
    · split at he
      · rename_i hsw
        rcases List.mem_cons.mp he with h1 | h1
        · rw [h1]
          exact hsw
        · exact ih h1
      · exact ih he

theorem scanLoopM_sublist (l : List PredictionEntry) (input : String) :
    (scanLoopM l input).Sublist l := by
  induction l with
  | nil => simp [scanLoopM]
  | cons e rest ih =>
    unfold scanLoopM
    split
    · exact List.nil_sublist _
    · split
      · exact List.Sublist.cons₂ e ih
      · exact List.Sublist.cons e ih

theorem scanLoopM_mem_startsWith {l : List PredictionEntry} {input : String}
    {e : PredictionEntry} (he : e ∈ scanLoopM l input) :
    strStartsWith e.word input = true := by
  induction l with
  | nil => simp [scanLoopM] at he
  | cons f rest ih =>
    unfold scanLoopM at he
    split at he
    · simp at he
    · split at he
      · rename_i hsw
        rcases List.mem_cons.mp he with h1 | h1
        · rw [h1]
          exact hsw
        · exact ih h1
      · exact ih he

/-- C1 (counterexample): the `models.rs` variant of `predict` has no
`truncate(10)`: a finalized index holding eleven words with the common
prefix `"a"` makes it return eleven entries, more than 10. -/
theorem c1_counterexample :
    ((finalize (count_wordsM []
        ["aa", "ab", "ac", "ad", "ae", "af", "ag", "ah", "ai", "aj", "ak"])).bind
      (fun idx => predictM idx "a")).map List.length = some 11 := by
  decide

/-- C1 (amended): for every finalized index and every non-empty prefix,
the `simplemodel.rs` `predict` returns at most 10 entries, each of whose
words starts with the queried prefix; the `models.rs` variant of
`predict` guarantees the prefix property but not the 10-entry bound
(its result is unbounded, see the counterexample). -/
theorem c1_predict_bound_and_prefix (m : TrainerMap) (idx : SimpleWordPredictor)
    (input : String) (h : finalize m = some idx) (hin : input ≠ "") :
    (∃ l, predict idx input = some l ∧ l.length ≤ 10 ∧
       ∀ e ∈ l, strStartsWith e.word input = true) ∧
    (∃ l, predictM idx input = some l ∧
       ∀ e ∈ l, strStartsWith e.word input = true) := by
  obtain ⟨d⟩ := input
  cases d with
  | nil => exact absurd rfl hin
  | cons c cs =>
    constructor
    · cases hg : hmGet idx.ixs c with
      | none =>
        refine ⟨[], ?_, by simp, by simp⟩
        simp [predict, hg]
      | some n =>
        refine ⟨(List.insertionSort scoreGe (scanLoop (idx.entries.drop n) c ⟨c :: cs⟩)).take 10,
          by simp [predict, hg], List.length_take_le 10 _, ?_⟩
        intro e he
        have h1 : e ∈ List.insertionSort scoreGe (scanLoop (idx.entries.drop n) c ⟨c :: cs⟩) :=
          List.take_subset 10 _ he
        have h2 : e ∈ scanLoop (idx.entries.drop n) c ⟨c :: cs⟩ :=
          (List.perm_insertionSort scoreGe _).mem_iff.mp h1
        exact scanLoop_mem_startsWith h2
    · cases hg : hmGet idx.ixs c with
      | none =>
        refine ⟨[], ?_, by simp⟩
        simp [predictM, hg]
      | some n =>
        refine ⟨List.insertionSort scoreGe (scanLoopM (idx.entries.drop n) ⟨c :: cs⟩),
          by simp [predictM, hg], ?_⟩
        intro e he
        have h2 : e ∈ scanLoopM (idx.entries.drop n) ⟨c :: cs⟩ :=
          (List.perm_insertionSort scoreGe _).mem_iff.mp he
        exact scanLoopM_mem_startsWith h2

/-- C1 (witness): the amended claim at a concrete finalized index and
prefix. -/
theorem c1_witness :
    finalize [("aa", 1)] = some ⟨[⟨"aa", 1⟩], [('a', 0)]⟩ ∧ ("a" : String) ≠ "" ∧
      ((∃ l, predict ⟨[⟨"aa", 1⟩], [('a', 0)]⟩ "a" = some l ∧ l.length ≤ 10 ∧
          ∀ e ∈ l, strStartsWith e.word "a" = true) ∧
       (∃ l, predictM ⟨[⟨"aa", 1⟩], [('a', 0)]⟩ "a" = some l ∧
          ∀ e ∈ l, strStartsWith e.word "a" = true)) :=
  ⟨by decide, by decide,
    c1_predict_bound_and_prefix [("aa", 1)] ⟨[⟨"aa", 1⟩], [('a', 0)]⟩ "a"
      (by decide) (by decide)⟩

/-! ### Claim C6 -/

/-- C6 (counterexample): on a concrete finalized index, `predict` with
the empty prefix panics — `input.char_at(0)` of `""`, modelled `none` —
so no `InvalidInput` error value is ever returned to the caller; indeed
the return type `Vec<PredictionEntry>` has no error channel. -/
theorem c6_counterexample : predict ⟨[⟨"aa", 1⟩], [('a', 0)]⟩ "" = none := rfl

/-- C6 (amended): an empty prefix is not explicitly rejected: for every
index, `predict` with the empty prefix panics (`char_at(0)` on the empty
string), rather than returning an `InvalidInput` error. -/
theorem c6_empty_prefix_panics (idx : SimpleWordPredictor) : predict idx "" = none := rfl

/-! ### Claim C9 -/

theorem map_pair_mk (l : List PredictionEntry) :
    (l.map (fun e => (e.word, e.score))).map
      (fun r => (⟨r.1, r.2⟩ : PredictionEntry)) = l := by
  induction l with
  | nil => rfl
  | cons e rest ih => simp [ih]

/-- C9 (confirmed): rebuilding a finalized index from its record form
(the ordered `(word, score)` pairs it writes out) yields an index that
predicts identically on every non-empty prefix; in fact the rebuilt
index is equal to the original, because `finalize` derives `ixs` by the
same `generate_ixs` the rebuild uses. -/
theorem c9_record_roundtrip (m : TrainerMap) (idx : SimpleWordPredictor)
    (h : finalize m = some idx) (input : String) (hin : input ≠ "") :
    predict (from_record_form (to_record_form idx)) input = predict idx input := by
  have heq : from_record_form (to_record_form idx) = idx := by
    unfold from_record_form to_record_form
    rw [map_pair_mk]
    rcases finalize_some_inv h with ⟨hne, hidx⟩
    rw [hidx]
  rw [heq]

/-- C9 (witness): the round trip at a concrete finalized index and
prefix. -/
theorem c9_witness :
    finalize [("aa", 1)] = some ⟨[⟨"aa", 1⟩], [('a', 0)]⟩ ∧ ("a" : String) ≠ "" ∧
      predict (from_record_form (to_record_form ⟨[⟨"aa", 1⟩], [('a', 0)]⟩)) "a" =
        predict ⟨[⟨"aa", 1⟩], [('a', 0)]⟩ "a" :=
  ⟨by decide, by decide,
    c9_record_roundtrip [("aa", 1)] ⟨[⟨"aa", 1⟩], [('a', 0)]⟩ (by decide) "a" (by decide)⟩

/-! ### Claim C3 -/

theorem orderedInsert_pairwise_stable (x : PredictionEntry) (s : List PredictionEntry)
    (hsr : s.Pairwise scoreGe)
    (hs : s.Pairwise (fun a b => b.score < a.score ∨ (b.score = a.score ∧ a.word < b.word)))
    (h2 : ∀ z ∈ s, z.score = x.score → x.word < z.word) :
    (List.orderedInsert scoreGe x s).Pairwise
      (fun a b => b.score < a.score ∨ (b.score = a.score ∧ a.word < b.word)) := by
  induction s with
  | nil => simp
  | cons y ys ih =>
    rw [List.orderedInsert]
    split
    · rename_i hxy
      refine List.Pairwise.cons ?_ hs
      intro z hz
      have hzle : z.score ≤ x.score := by
        rcases List.mem_cons.mp hz with h1 | h1
        · rw [h1]
          exact hxy
        · exact le_trans (List.rel_of_pairwise_cons hsr h1) hxy
      rcases lt_or_eq_of_le hzle with hlt | heq
      · exact Or.inl hlt
      · exact Or.inr ⟨heq, h2 z hz heq⟩
    · rename_i hxy
      have hxlt : x.score < y.score := not_le.mp hxy
      refine List.Pairwise.cons ?_
        (ih (List.Pairwise.of_cons hsr) (List.Pairwise.of_cons hs)
          (fun z hz => h2 z (List.mem_cons_of_mem y hz)))
      intro z hz
      rcases (List.mem_orderedInsert scoreGe).mp hz with h1 | h1
      · rw [h1]
        exact Or.inl hxlt
      · exact List.rel_of_pairwise_cons hs h1

theorem insertionSort_pairwise_stable (l : List PredictionEntry)
    (hq : l.Pairwise (fun a b => a.word < b.word)) :
    (List.insertionSort scoreGe l).Pairwise
      (fun a b => b.score < a.score ∨ (b.score = a.score ∧ a.word < b.word)) := by
  induction l with
  | nil => simp
  | cons x xs ih =>
    rw [List.insertionSort]
    exact orderedInsert_pairwise_stable x _
      (List.sorted_insertionSort scoreGe xs)
      (ih (List.Pairwise.of_cons hq))
      (fun z hz _ => List.rel_of_pairwise_cons hq
        ((List.perm_insertionSort scoreGe xs).mem_iff.mp hz))

instance (m : TrainerMap) : Decidable (HMWf m) :=
  inferInstanceAs (Decidable ((m.map Prod.fst).Nodup))

theorem toEntries_map_word (m : TrainerMap) :
    (toEntries m).map (fun e => e.word) = m.map Prod.fst := by
  induction m with
  | nil => rfl
  | cons p rest ih => simp_all [toEntries]

theorem finalize_entries_sorted_strict {m : TrainerMap} {idx : SimpleWordPredictor}
    (hwf : HMWf m) (h : finalize m = some idx) :
    idx.entries.Pairwise (fun a b => a.word < b.word) := by
  rcases finalize_some_inv h with ⟨hne, hidx⟩
  rw [hidx]
  have hle : (sortEntries (toEntries m)).Pairwise wordLe := sortEntries_sorted _
  have hnd : ((sortEntries (toEntries m)).map (fun e => e.word)).Nodup := by
    rw [((sortEntries_perm (toEntries m)).map (fun e => e.word)).nodup_iff,
      toEntries_map_word]
    exact hwf
  have hne2 : (sortEntries (toEntries m)).Pairwise (fun a b => a.word ≠ b.word) :=
    List.pairwise_map.mp hnd
  exact (hle.and hne2).imp
    (fun hab => lt_of_le_of_ne ((wordLe_iff _ _).mp hab.1) hab.2)

/-- C3 (confirmed): the entries `predict` returns are sorted by score
descending, and any two returned entries with equal scores appear in
strictly ascending word order — i.e. in the same relative order they
have in the lexically sorted entry list, so the score sort is stable
with respect to the lexical pre-sort. -/
theorem c3_sorted_stable (m : TrainerMap) (idx : SimpleWordPredictor) (input : String)
    (l : List PredictionEntry) (hwf : HMWf m) (h : finalize m = some idx)
    (hp : predict idx input = some l) :
    l.Pairwise (fun a b => b.score < a.score ∨ (b.score = a.score ∧ a.word < b.word)) := by
  have hsorted := finalize_entries_sorted_strict hwf h
  obtain ⟨d⟩ := input
  cases d with
  | nil =>
    simp [predict] at hp
  | cons c cs =>
    cases hg : hmGet idx.ixs c with
    | none =>
      simp [predict, hg] at hp
      subst hp
      simp
    | some n =>
      simp [predict, hg] at hp
      subst hp
      have hscanQ : (scanLoop (idx.entries.drop n) c ⟨c :: cs⟩).Pairwise
          (fun a b => a.word < b.word) :=
        List.Pairwise.sublist
          ((scanLoop_sublist _ c ⟨c :: cs⟩).trans (List.drop_sublist n _)) hsorted
      exact List.Pairwise.sublist (List.take_sublist 10 _)
        (insertionSort_pairwise_stable _ hscanQ)

/-- C3 (witness): the stability property at a concrete index with a
score tie. -/
theorem c3_witness :
    HMWf (count_words [] ["aa", "ab"]) ∧
    finalize (count_words [] ["aa", "ab"]) =
      some ⟨[⟨"aa", 1⟩, ⟨"ab", 1⟩], [('a', 0)]⟩ ∧
    predict ⟨[⟨"aa", 1⟩, ⟨"ab", 1⟩], [('a', 0)]⟩ "a" = some [⟨"aa", 1⟩, ⟨"ab", 1⟩] ∧
    List.Pairwise (fun a b => b.score < a.score ∨ (b.score = a.score ∧ a.word < b.word))
      [(⟨"aa", 1⟩ : PredictionEntry), ⟨"ab", 1⟩] :=
  ⟨by decide, by decide, by decide,
    c3_sorted_stable (count_words [] ["aa", "ab"]) ⟨[⟨"aa", 1⟩, ⟨"ab", 1⟩], [('a', 0)]⟩
      "a" [⟨"aa", 1⟩, ⟨"ab", 1⟩] (by decide) (by decide) (by decide)⟩

/-! ### Claim C10 -/

/-- C10 (confirmed): with no pending word, the bigram `count_words`
reaches `input[0]` on the empty input and panics (modelled `none`); the
trainer is not left unchanged — the call does not return. -/
theorem c10_empty_first_train_panics (outer : List (String × TrainerMap)) :
    count_wordsB ⟨outer, none⟩ [] = none := rfl

/-! ### Claim C4 -/

theorem bigramLoop_append (outer : List (String × TrainerMap)) (last : String)
    (as bs : List String) :
    bigramLoop outer last (as ++ bs) =
      bigramLoop (bigramLoop outer last as).1 (bigramLoop outer last as).2 bs := by
  induction as generalizing outer last with
  | nil => rfl
  | cons a as ih =>
    simpa [bigramLoop] using ih (bigramBump outer last a) a

theorem bigramLoop_last (outer : List (String × TrainerMap)) (last : String)
    (ws : List String) : (bigramLoop outer last ws).2 = ws.getLastD last := by
  induction ws generalizing outer last with
  | nil => rfl
  | cons w ws ih =>
    show (bigramLoop (bigramBump outer last w) w ws).2 = (w :: ws).getLastD last
    rw [ih, List.getLastD_cons]

/-- C4 (counterexample): the continuity claim fails when the first call
gets the empty token sequence: on a fresh trainer it panics (`input[0]`
of an empty slice, modelled `none`), while training the concatenation in
one call succeeds. -/
theorem c4_counterexample :
    (count_wordsB bigramNew []).bind (fun t => count_wordsB t ["a", "b"]) = none ∧
      count_wordsB bigramNew ([] ++ ["a", "b"]) =
        some ⟨[("a", [("b", 1)])], some "b"⟩ := by
  constructor <;> decide

/-- C4 (amended): provided the first token sequence is non-empty,
training a fresh BigramTrainer on it and then on a second sequence in
two calls produces exactly the same trainer state — the same bigram
counts and the same pending word — as training a fresh trainer on the
concatenation in one call; in particular the boundary pair formed by the
last token of the first call and the first token of the second call is
counted. -/
theorem c4_train_split_continuity (xs ys : List String) (hxs : xs ≠ []) :
    (count_wordsB bigramNew xs).bind (fun t => count_wordsB t ys) =
      count_wordsB bigramNew (xs ++ ys) := by
  cases xs with
  | nil => exact absurd rfl hxs
  | cons x0 xr =>
    have hL : count_wordsB bigramNew (x0 :: xr) =
        some ⟨(bigramLoop [] x0 xr).1, some (bigramLoop [] x0 xr).2⟩ := rfl
    have hR : count_wordsB bigramNew ((x0 :: xr) ++ ys) =
        some ⟨(bigramLoop [] x0 (xr ++ ys)).1, some (bigramLoop [] x0 (xr ++ ys)).2⟩ := rfl
    rw [hL, hR, bigramLoop_append]
    rfl

/-- C4 (witness): the amended claim at concrete token sequences. -/
theorem c4_witness :
    (["a", "b"] : List String) ≠ [] ∧
      (count_wordsB bigramNew ["a", "b"]).bind (fun t => count_wordsB t ["c"]) =
        count_wordsB bigramNew (["a", "b"] ++ ["c"]) :=
  ⟨by decide, c4_train_split_continuity ["a", "b"] ["c"] (by decide)⟩

/-! ### Claim C7 -/

theorem tsw_hmGet_preserve {t : TrainerMap} {w w' : String} (hw : w ≠ w' ∨ w = "") :
    hmGet (train_single_word t w') w = hmGet t w := by
  rcases hw with hw | hw
  · exact tsw_hmGet_ne t hw
  · subst hw
    exact tsw_hmGet_empty t w'

theorem bigramBump_hmGet_none {outer : List (String × TrainerMap)} {last w' w : String}
    (hw : w ≠ w' ∨ w = "") (h : ∀ p ∈ outer, hmGet p.2 w = none) :
    ∀ p ∈ bigramBump outer last w', hmGet p.2 w = none := by
  induction outer with
  | nil =>
    intro p hp
    rcases List.mem_cons.mp (show p ∈ [(last, train_single_word [] w')] from hp)
      with h1 | h1
    · rw [h1]
      show hmGet (train_single_word [] w') w = none
      rw [tsw_hmGet_preserve hw]
      rfl
    · simp at h1
  | cons q rest ih =>
    obtain ⟨k, t⟩ := q
    intro p hp
    by_cases hk : k = last
    · subst hk
      rcases List.mem_cons.mp (by simpa [bigramBump] using hp) with h1 | h1
      · rw [h1]
        show hmGet (train_single_word t w') w = none
        rw [tsw_hmGet_preserve hw]
        exact h (k, t) (List.mem_cons_self _ _)
      · exact h p (List.mem_cons_of_mem _ h1)
    · rcases List.mem_cons.mp (by simpa [bigramBump, hk] using hp) with h1 | h1
      · rw [h1]
        exact h (k, t) (List.mem_cons_self _ _)
      · exact ih (fun u hu => h u (List.mem_cons_of_mem _ hu)) p h1

theorem bigramLoop_hmGet_none {w : String} (ws : List String)
    (hws : ∀ w' ∈ ws, w ≠ w' ∨ w = "") :
    ∀ (outer : List (String × TrainerMap)) (last : String),
      (∀ p ∈ outer, hmGet p.2 w = none) →
      ∀ p ∈ (bigramLoop outer last ws).1, hmGet p.2 w = none := by
  induction ws with
  | nil => exact fun outer last h => h
  | cons w' ws ih =>
    intro outer last h
    exact ih (fun u hu => hws u (List.mem_cons_of_mem _ hu))
      (bigramBump outer last w') w'
      (bigramBump_hmGet_none (hws w' (List.mem_cons_self _ _)) h)

/-- C7 (counterexample): training a fresh BigramTrainer on `["a", ""]`
leaves `Some("")` as the pending word: the empty token does become the
pending word, because `last_word` is updated from every token, processed
or not. -/
theorem c7_counterexample :
    count_wordsB bigramNew ["a", ""] = some ⟨[("a", [])], some ""⟩ := by
  decide

/-- C7 (amended): zero-length tokens are never counted as completion
targets — every inner trainer's count of the empty word stays absent —
but the pending word is updated from every token, including empty ones:
after a successful train call on a non-empty token list the pending word
is the literal last token of the list, which may be the empty string. -/
theorem c7_empty_tokens (tr : BigramTrainer) (xs : List String) (t : BigramTrainer)
    (h0 : ∀ p ∈ tr.outer_map, hmGet p.2 "" = none)
    (hxs : xs ≠ []) (h : count_wordsB tr xs = some t) :
    (∀ p ∈ t.outer_map, hmGet p.2 "" = none) ∧
      t.prev_word = some (xs.getLastD "") := by
  have hws : ∀ ws : List String, ∀ w' ∈ ws, ("" : String) ≠ w' ∨ ("" : String) = "" :=
    fun ws w' _ => Or.inr rfl
  obtain ⟨outer, prev⟩ := tr
  cases prev with
  | none =>
    cases xs with
    | nil => exact absurd rfl hxs
    | cons x0 xr =>
      obtain rfl : t = ⟨(bigramLoop outer x0 xr).1, some (bigramLoop outer x0 xr).2⟩ :=
        (Option.some.inj h).symm
      refine ⟨bigramLoop_hmGet_none xr (hws xr) outer x0 h0, ?_⟩
      show some (bigramLoop outer x0 xr).2 = _
      rw [bigramLoop_last, List.getLastD_cons]
  | some w =>
    cases xs with
    | nil => exact absurd rfl hxs
    | cons x0 xr =>
      obtain rfl :
          t = ⟨(bigramLoop outer w (x0 :: xr)).1, some (bigramLoop outer w (x0 :: xr)).2⟩ :=
        (Option.some.inj h).symm
      refine ⟨bigramLoop_hmGet_none (x0 :: xr) (hws (x0 :: xr)) outer w h0, ?_⟩
      show some (bigramLoop outer w (x0 :: xr)).2 = _
      rw [bigramLoop_last, List.getLastD_cons, List.getLastD_cons]

/-- C7 (witness): the amended claim at a concrete trainer and token
list ending in an empty token. -/
theorem c7_witness :
    (∀ p ∈ bigramNew.outer_map, hmGet p.2 "" = none) ∧ (["a", ""] : List String) ≠ [] ∧
      count_wordsB bigramNew ["a", ""] = some ⟨[("a", [])], some ""⟩ ∧
      ((∀ p ∈ (⟨[("a", [])], some ""⟩ : BigramTrainer).outer_map, hmGet p.2 "" = none) ∧
        (⟨[("a", [])], some ""⟩ : BigramTrainer).prev_word =
          some ((["a", ""] : List String).getLastD "")) :=
  ⟨by decide, by decide, by decide,
    c7_empty_tokens bigramNew ["a", ""] ⟨[("a", [])], some ""⟩
      (by decide) (by decide) (by decide)⟩

/-! ### Claim C5 -/

theorem hmGet_mem {α β : Type} [DecidableEq α] {m : List (α × β)} {a : α} {b : β}
    (h : hmGet m a = some b) : (a, b) ∈ m := by
  induction m with
  | nil => cases h
  | cons p rest ih =>
    obtain ⟨k, v⟩ := p
    by_cases hk : a = k
    · subst hk
      simp [hmGet] at h
      simp [h]
    · simp only [hmGet, if_neg hk] at h
      exact List.mem_cons_of_mem _ (ih h)

theorem finalizeB_mem {outer : List (String × TrainerMap)}
    {bp : List (String × SimpleWordPredictor)} (h : finalizeB outer = some bp)
    {k : String} {p : SimpleWordPredictor} (hp : (k, p) ∈ bp) :
    ∃ t, (k, t) ∈ outer ∧ finalize t = some p := by
  induction outer generalizing bp with
  | nil =>
    obtain rfl : bp = [] := (Option.some.inj h).symm
    simp at hp
  | cons q rest ih =>
    obtain ⟨k0, t0⟩ := q
    cases hf : finalize t0 with
    | none => simp [finalizeB, hf] at h
    | some idx =>
      cases hr : finalizeB rest with
      | none => simp [finalizeB, hf, hr] at h
      | some r =>
        have h2 : some ((k0, idx) :: r) = some bp := by
          rw [← h]
          simp [finalizeB, hf, hr]
        obtain rfl : bp = (k0, idx) :: r := (Option.some.inj h2).symm
        rcases List.mem_cons.mp hp with h1 | h1
        · obtain ⟨hk, hidx⟩ := Prod.mk.injEq .. ▸ h1
          refine ⟨t0, ?_, ?_⟩
          · rw [hk]
            exact List.mem_cons_self _ _
          · rw [hidx]
            exact hf
        · rcases ih hr h1 with ⟨t, htm, hft⟩
          exact ⟨t, List.mem_cons_of_mem _ htm, hft⟩

theorem predict_mem_entries {idx : SimpleWordPredictor} {input : String}
    {l : List PredictionEntry} (hp : predict idx input = some l) :
    ∀ e ∈ l, e ∈ idx.entries := by
  obtain ⟨d⟩ := input
  cases d with
  | nil => simp [predict] at hp
  | cons c cs =>
    cases hg : hmGet idx.ixs c with
    | none =>
      simp [predict, hg] at hp
      subst hp
      simp
    | some n =>
      simp [predict, hg] at hp
      subst hp
      intro e he
      have h1 := List.take_subset 10 _ he
      have h2 := (List.perm_insertionSort scoreGe _).mem_iff.mp h1
      exact ((scanLoop_sublist _ _ _).trans (List.drop_sublist n _)).subset h2

theorem finalize_entry_word_mem {m : TrainerMap} {idx : SimpleWordPredictor}
    (h : finalize m = some idx) {e : PredictionEntry} (he : e ∈ idx.entries) :
    e.word ∈ m.map Prod.fst :=
  word_mem_keys_of_mem_toEntries (mem_entries_of_finalize h he)

/-- C5 (confirmed): on a fresh BigramTrainer, the first token of the
first train call is consumed only as conditioning context.  If the first
token occurs nowhere else in the call, then no inner trainer holds a
count for it, and after finalizing, no prediction for any conditioning
word and any prefix ever returns it. -/
theorem c5_first_token_only_context (x0 : String) (xr : List String) (t : BigramTrainer)
    (bp : List (String × SimpleWordPredictor)) (hx : x0 ∉ xr)
    (ht : count_wordsB bigramNew (x0 :: xr) = some t)
    (hb : finalizeB t.outer_map = some bp) :
    (∀ p ∈ t.outer_map, hmGet p.2 x0 = none) ∧
      ∀ c input l, predictB bp c input = some l → ∀ e ∈ l, e.word ≠ x0 := by
  obtain rfl : t = ⟨(bigramLoop [] x0 xr).1, some (bigramLoop [] x0 xr).2⟩ :=
    (Option.some.inj ht).symm
  have hws : ∀ w' ∈ xr, x0 ≠ w' ∨ x0 = "" :=
    fun w' hw' => Or.inl (fun hc => hx (hc ▸ hw'))
  have hnone : ∀ p ∈ (bigramLoop [] x0 xr).1, hmGet p.2 x0 = none :=
    bigramLoop_hmGet_none xr hws [] x0 (by simp)
  refine ⟨hnone, ?_⟩
  intro c input l hpB e he
  cases hgb : hmGet bp c with
  | none =>
    simp [predictB, hgb] at hpB
    subst hpB
    simp at he
  | some p =>
    simp only [predictB, hgb] at hpB
    have hmemBp := hmGet_mem hgb
    rcases finalizeB_mem hb hmemBp with ⟨tin, htin, hfin⟩
    have heent := predict_mem_entries hpB e he
    have hkey := finalize_entry_word_mem hfin heent
    intro hc
    rw [hc] at hkey
    have hx0 := hnone (c, tin) htin
    rw [hmGet_eq_none] at hx0
    exact hx0 hkey

/-- C5 (witness): the property at a concrete two-token first call. -/
theorem c5_witness :
    ("s" ∉ (["t"] : List String)) ∧
      count_wordsB bigramNew ["s", "t"] = some ⟨[("s", [("t", 1)])], some "t"⟩ ∧
      finalizeB [("s", [("t", 1)])] = some [("s", ⟨[⟨"t", 1⟩], [('t', 0)]⟩)] ∧
      ((∀ p ∈ ([("s", [("t", 1)])] : List (String × TrainerMap)), hmGet p.2 "s" = none) ∧
        ∀ c input l, predictB [("s", ⟨[⟨"t", 1⟩], [('t', 0)]⟩)] c input = some l →
          ∀ e ∈ l, e.word ≠ "s") :=
  ⟨by decide, by decide, by decide,
    c5_first_token_only_context "s" ["t"] ⟨[("s", [("t", 1)])], some "t"⟩
      [("s", ⟨[⟨"t", 1⟩], [('t', 0)]⟩)] (by decide) (by decide) (by decide)⟩

/-! ### Claim C8 -/

/-- Position of the first occurrence of a character in a list (0 when
absent at the end, only meaningful under a membership hypothesis). -/
def idxOfC (c : Char) : List Char → Nat
  | [] => 0
  | d :: rest => if c = d then 0 else idxOfC c rest + 1

theorem idxOfC_take {c : Char} : ∀ {cs : List Char}, c ∈ cs →
    ∀ x ∈ cs.take (idxOfC c cs), x ≠ c := by
  intro cs
  induction cs with
  | nil => simp
  | cons d rest ih =>
    intro hc x hx
    by_cases hd : c = d
    · simp [idxOfC, hd] at hx
    · rw [idxOfC, if_neg hd, List.take_succ_cons] at hx
      rcases List.mem_cons.mp hx with h1 | h1
      · rw [h1]
        exact fun hh => hd hh.symm
      · have hcrest : c ∈ rest := by
          rcases List.mem_cons.mp hc with h2 | h2
          · exact absurd h2 hd
          · exact h2
        exact ih hcrest x h1

theorem idxOfC_drop {c : Char} : ∀ {cs : List Char}, c ∈ cs →
    ∃ t, cs.drop (idxOfC c cs) = c :: t := by
  intro cs
  induction cs with
  | nil => simp
  | cons d rest ih =>
    intro hc
    by_cases hd : c = d
    · exact ⟨rest, by simp [idxOfC, hd]⟩
    · have hcrest : c ∈ rest := by
        rcases List.mem_cons.mp hc with h2 | h2
        · exact absurd h2 hd
        · exact h2
      rw [idxOfC, if_neg hd]
      simpa using ih hcrest

theorem sorted_dropWhile_ne (c : Char) :
    ∀ (t : List Char), t.Pairwise (· ≤ ·) → (∀ x ∈ t, c ≤ x) →
      ∀ x ∈ t.dropWhile (fun y => y == c), x ≠ c := by
  intro t
  induction t with
  | nil => simp
  | cons u t ih =>
    intro hs hge x hx
    by_cases hu : u = c
    · rw [List.dropWhile_cons_of_pos (by simp [hu])] at hx
      exact ih (List.Pairwise.of_cons hs) (fun y hy => hge y (List.mem_cons_of_mem u hy)) x hx
    · rw [List.dropWhile_cons_of_neg (by simp [hu])] at hx
      rcases List.mem_cons.mp hx with h1 | h1
      · rw [h1]
        exact hu
      · have hcu : c < u := lt_of_le_of_ne (hge u (List.mem_cons_self u t)) (Ne.symm hu)
        have hux : u ≤ x := List.rel_of_pairwise_cons hs h1
        exact (lt_of_lt_of_le hcu hux).ne'

theorem genIxsAux_hmGet (c : Char) :
    ∀ (l : List PredictionEntry) (last_c : Char) (ix : Nat) (acc : List (Char × Nat)),
      (l.map (fun e => firstChar e.word)).Pairwise (· ≤ ·) →
      ((∀ e ∈ l, last_c ≤ firstChar e.word) ∨ (∀ e ∈ l, firstChar e.word ≠ last_c)) →
      hmGet (genIxsAux l last_c ix acc) c =
        if c ≠ last_c ∧ c ∈ l.map (fun e => firstChar e.word)
        then some (ix + idxOfC c (l.map (fun e => firstChar e.word)))
        else hmGet acc c := by
  intro l
  induction l with
  | nil =>
    intro last_c ix acc _ _
    simp [genIxsAux]
  | cons e rest ih =>
    intro last_c ix acc hsort hlast
    have hsort2 : (rest.map (fun e => firstChar e.word)).Pairwise (· ≤ ·) :=
      List.Pairwise.of_cons hsort
    have hheadle : ∀ f ∈ rest, firstChar e.word ≤ firstChar f.word := fun f hf =>
      List.rel_of_pairwise_cons hsort (List.mem_map_of_mem _ hf)
    by_cases hc0 : firstChar e.word ≠ last_c
    · rw [genIxsAux, if_pos hc0, ih (firstChar e.word) (ix + 1) _ hsort2 (Or.inl hheadle)]
      by_cases hcc0 : c = firstChar e.word
      · rw [if_neg (by simp [hcc0]), if_pos ⟨hcc0 ▸ hc0, by simp [hcc0]⟩]
        simp [hcc0, hmGet, idxOfC]
      · have hmemiff : (c ∈ (e :: rest).map (fun e => firstChar e.word)) ↔
            c ∈ rest.map (fun e => firstChar e.word) := by
          simp [List.mem_cons, hcc0]
        by_cases hcrest : c ∈ rest.map (fun e => firstChar e.word)
        · have hclast : c ≠ last_c := by
            rcases hlast with hlast | hlast
            · have h1 : last_c < firstChar e.word :=
                lt_of_le_of_ne (hlast e (List.mem_cons_self e rest)) (Ne.symm hc0)
              rcases List.mem_map.mp hcrest with ⟨f, hf, hfc⟩
              have h2 : firstChar e.word ≤ c := hfc ▸ hheadle f hf
              exact (lt_of_lt_of_le h1 h2).ne'
            · rcases List.mem_map.mp hcrest with ⟨f, hf, hfc⟩
              exact hfc ▸ hlast f (List.mem_cons_of_mem e hf)
          rw [if_pos ⟨hcc0, hcrest⟩, if_pos ⟨hclast, hmemiff.mpr hcrest⟩]
          rw [List.map_cons, idxOfC, if_neg hcc0]
          congr 1
          omega
        · rw [if_neg (by simp [hcrest]), if_neg (by rw [hmemiff]; simp [hcrest])]
          simp [hmGet, hcc0]
    · push_neg at hc0
      have hlast2 : ∀ f ∈ e :: rest, last_c ≤ firstChar f.word := by
        rcases hlast with hlast | hlast
        · exact hlast
        · exact absurd hc0 (hlast e (List.mem_cons_self e rest))
      rw [genIxsAux, if_neg (by simp [hc0]),
        ih last_c (ix + 1) acc hsort2
          (Or.inl (fun f hf => hlast2 f (List.mem_cons_of_mem e hf)))]
      by_cases hcl : c = last_c
      · rw [if_neg (by simp [hcl]), if_neg (by simp [hcl])]
      · have hcc0 : c ≠ firstChar e.word := hc0 ▸ hcl
        by_cases hcrest : c ∈ rest.map (fun e => firstChar e.word)
        · rw [if_pos ⟨hcl, hcrest⟩,
            if_pos ⟨hcl, by simp [List.mem_cons, hcrest]⟩]
          rw [List.map_cons, idxOfC, if_neg (hc0 ▸ hcl)]
          congr 1
          omega
        · rw [if_neg (by simp [hcrest]), if_neg (by simp [hcc0, hcrest])]

theorem firstChar_le_of_lt {s t : String} (hs : s ≠ "") (h : s < t) :
    firstChar s ≤ firstChar t := by
  rw [String.lt_iff_toList_lt] at h
  obtain ⟨ds⟩ := s
  obtain ⟨dt⟩ := t
  cases ds with
  | nil => exact absurd rfl hs
  | cons a as =>
    cases dt with
    | nil =>
      have h2 : List.Lex (· < ·) (a :: as) ([] : List Char) := h
      cases h2
    | cons b bs =>
      have h2 : List.Lex (· < ·) (a :: as) (b :: bs) := h
      cases h2 with
      | cons h3 => exact le_refl _
      | rel h3 => exact le_of_lt h3

theorem finalize_entry_word_ne {m : TrainerMap} {idx : SimpleWordPredictor}
    (h : finalize m = some idx) {e : PredictionEntry} (he : e ∈ idx.entries) :
    e.word ≠ "" := by
  have hk := finalize_entry_word_mem h he
  rcases List.mem_map.mp hk with ⟨p, hp, hpe⟩
  rw [← hpe]
  exact (finalize_some_inv h).1 p hp

theorem dropWhile_map_fc (c : Char) (l : List PredictionEntry) :
    (l.map (fun e => firstChar e.word)).dropWhile (fun d => d == c) =
      (l.dropWhile (fun e => firstChar e.word == c)).map
        (fun e => firstChar e.word) := by
  induction l with
  | nil => rfl
  | cons e rest ih =>
    by_cases hp : firstChar e.word == c <;>
      simp [List.dropWhile_cons, hp, ih]

/-- C8 (counterexample): the `generate_ixs` scan seeds `last_c` with
`'\n'` (the source comments "There will be no newlines in the input"), so
a word whose leading character is `'\n'` never triggers an insert: the
finalized index below has a `'\n'`-leading entry but no bucket for
`'\n'`, refuting the claim for that leading character. -/
theorem c8_counterexample :
    (finalize [("\na", 1)]).map
        (fun idx => idx.entries.map (fun e => firstChar e.word)) = some ['\n'] ∧
      (finalize [("\na", 1)]).map (fun idx => hmGet idx.ixs '\n') = some none := by
  constructor <;> decide

/-- C8 (amended): for every finalized index none of whose words begins
with the newline character (the situation the code explicitly assumes),
the entry list is sorted by word in strictly ascending order (hence no
duplicate words), and for every leading character present the bucket
index maps it to an offset `n` such that no earlier entry has that
leading character, the entry at `n` does, and all entries with that
leading character form a contiguous run starting at `n` (no entry after
the run has it). -/
theorem c8_bucket_index (m : TrainerMap) (idx : SimpleWordPredictor)
    (hwf : HMWf m) (h : finalize m = some idx)
    (hnl : ∀ p ∈ m, firstChar p.1 ≠ '\n') :
    idx.entries.Pairwise (fun a b => a.word < b.word) ∧
    ∀ c : Char, (∃ e ∈ idx.entries, firstChar e.word = c) →
      ∃ n, hmGet idx.ixs c = some n ∧
        (∀ e ∈ idx.entries.take n, firstChar e.word ≠ c) ∧
        (idx.entries.drop n).takeWhile (fun e => firstChar e.word == c) ≠ [] ∧
        ∀ e ∈ (idx.entries.drop n).dropWhile (fun e => firstChar e.word == c),
          firstChar e.word ≠ c := by
  have hstrict := finalize_entries_sorted_strict hwf h
  refine ⟨hstrict, ?_⟩
  have hixs : idx.ixs = generate_ixs idx.entries := by
    rw [(finalize_some_inv h).2]
  have hwne : ∀ e ∈ idx.entries, e.word ≠ "" := fun e he => finalize_entry_word_ne h he
  have hfcle : idx.entries.Pairwise
      (fun a b => firstChar a.word ≤ firstChar b.word) :=
    hstrict.imp_of_mem (fun ha _ hab => firstChar_le_of_lt (hwne _ ha) hab)
  have hcssort : (idx.entries.map (fun e => firstChar e.word)).Pairwise (· ≤ ·) :=
    List.pairwise_map.mpr hfcle
  have hnlE : ∀ e ∈ idx.entries, firstChar e.word ≠ '\n' := by
    intro e he
    have hm := mem_entries_of_finalize h he
    rcases List.mem_map.mp hm with ⟨p, hp, hpe⟩
    rw [← hpe]
    exact hnl p hp
  intro c hcmem
  rcases hcmem with ⟨e0, he0, hfc0⟩
  have hcs : c ∈ idx.entries.map (fun e => firstChar e.word) :=
    List.mem_map.mpr ⟨e0, he0, hfc0⟩
  have hcne : c ≠ '\n' := hfc0 ▸ hnlE e0 he0
  refine ⟨idxOfC c (idx.entries.map (fun e => firstChar e.word)), ?_, ?_, ?_, ?_⟩
  · rw [hixs]
    unfold generate_ixs
    rw [genIxsAux_hmGet c idx.entries '\n' 0 [] hcssort (Or.inr hnlE),
      if_pos ⟨hcne, hcs⟩, Nat.zero_add]
  · intro e he
    have hfce : firstChar e.word ∈
        (idx.entries.map (fun f => firstChar f.word)).take
          (idxOfC c (idx.entries.map (fun f => firstChar f.word))) := by
      rw [← List.map_take]
      exact List.mem_map_of_mem _ he
    exact idxOfC_take hcs _ hfce
  · rcases idxOfC_drop hcs with ⟨t, hB⟩
    cases hd : idx.entries.drop (idxOfC c (idx.entries.map (fun f => firstChar f.word))) with
    | nil =>
      rw [← List.map_drop, hd] at hB
      cases hB
    | cons f r =>
      rw [← List.map_drop, hd, List.map_cons] at hB
      have hf : firstChar f.word = c := (List.cons.inj hB).1
      rw [List.takeWhile_cons_of_pos (by simp [hf])]
      simp
  · intro e he
    rcases idxOfC_drop hcs with ⟨t, hB⟩
    have hmap : firstChar e.word ∈
        ((idx.entries.drop (idxOfC c (idx.entries.map (fun f => firstChar f.word)))).dropWhile
          (fun f => firstChar f.word == c)).map (fun f => firstChar f.word) :=
      List.mem_map_of_mem _ he
    rw [← dropWhile_map_fc c, List.map_drop, hB,
      List.dropWhile_cons_of_pos (by simp)] at hmap
    have hdropsort : (c :: t).Pairwise (fun a b : Char => a ≤ b) := by
      rw [← hB]
      exact List.Pairwise.sublist (List.drop_sublist _ _) hcssort
    exact sorted_dropWhile_ne c t (List.Pairwise.of_cons hdropsort)
      (fun y hy => List.rel_of_pairwise_cons hdropsort hy) _ hmap

/-- C8 (witness): the bucket-index property at a concrete finalized
index. -/
theorem c8_witness :
    HMWf [("a", 1)] ∧
    finalize [("a", 1)] = some ⟨[⟨"a", 1⟩], [('a', 0)]⟩ ∧
    (∀ p ∈ ([("a", 1)] : TrainerMap), firstChar p.1 ≠ '\n') ∧
    (([⟨"a", 1⟩] : List PredictionEntry).Pairwise (fun a b => a.word < b.word) ∧
      ∀ c : Char, (∃ e ∈ ([⟨"a", 1⟩] : List PredictionEntry), firstChar e.word = c) →
        ∃ n, hmGet [('a', 0)] c = some n ∧
          (∀ e ∈ ([⟨"a", 1⟩] : List PredictionEntry).take n, firstChar e.word ≠ c) ∧
          (([⟨"a", 1⟩] : List PredictionEntry).drop n).takeWhile
            (fun e => firstChar e.word == c) ≠ [] ∧
          ∀ e ∈ (([⟨"a", 1⟩] : List PredictionEntry).drop n).dropWhile
            (fun e => firstChar e.word == c), firstChar e.word ≠ c) :=
  ⟨by decide, by decide, by decide,
    c8_bucket_index [("a", 1)] ⟨[⟨"a", 1⟩], [('a', 0)]⟩ (by decide) (by decide) (by decide)⟩
